import Mathlib

/-!
Shallow embedding of the skin-cancer-app inference pipeline
(`config.py`, `utils.py`, `inference.py`) and proofs of the claimed
properties.

Modelling conventions:
* numpy/torch floating-point scalars are embedded as exact rationals `ℚ`;
  a numpy value that is not a finite real number (NaN or ±inf, produced
  by a division whose denominator is zero) is embedded as `none` in
  `Option ℚ`, and `fdiv` below is numpy division with that convention.
* tensors are embedded as nested lists: a probability vector is
  `List ℚ`, a single-channel spatial map is `List (List ℚ)` (rows of
  columns), and an image tensor (C×H×W, the batch axis dropped) is
  `List (List (List ℚ))`.
* the trained network, the exponential inside softmax, the PIL decoder,
  the torchvision preprocessing and the tensors captured by the
  Grad-CAM hooks are opaque real-number computations; they enter the
  embedding as parameters (`PipelineEnv`), with the structural facts
  the code guarantees (softmax's exponential is strictly positive, the
  classifier head emits 7 logits) as explicit hypotheses.
* `np.argsort` uses its default `quicksort` kind, whose implementation
  runs plain insertion sort on arrays shorter than 16 elements, so on
  the 7-element probability vector it is exactly a stable ascending
  insertion sort; it is embedded via `List.insertionSort` on indices.
* the mutable state of the loaded module (hook registrations on
  `model.stream_b.backbone[-1]`, accumulated parameter gradients,
  forward-call count) is threaded explicitly as `ModelState`.
-/

attribute [local semireducible] Rat.add Rat.sub Rat.mul Rat.inv

namespace SkinCancerApp

/-! ### config.py -/

def num_classes : ℕ := 7

def num_meta_features : ℕ := 19

/-- Values of `LESION_TYPE_DICT` in insertion order; `IDX_TO_CLASS` in
`config.py` enumerates exactly this list. -/
def IDX_TO_CLASS : List String :=
  ["Melanocytic nevi", "Melanoma", "Benign keratosis",
   "Basal cell carcinoma", "Actinic keratoses",
   "Vascular lesions", "Dermatofibroma"]

def SEX_COLS : List String := ["sex_female", "sex_male", "sex_unknown"]

def LOC_COLS : List String :=
  ["localization_abdomen", "localization_acral", "localization_back",
   "localization_chest", "localization_ear", "localization_face",
   "localization_foot", "localization_genital", "localization_hand",
   "localization_lower extremity", "localization_neck",
   "localization_scalp", "localization_trunk", "localization_unknown",
   "localization_upper extremity"]

/-! ### utils.py: process_metadata -/

/-- Python `str.lower()` on the (ASCII) category strings: lowercase
every character.  Extensionally identical to `String.toLower` (which
is defined through `String.mapAux` and does not reduce definitionally). -/
def strToLower (s : String) : String := ⟨s.data.map Char.toLower⟩

/-- Embedding of `utils.process_metadata`: builds the 19-dimensional
metadata vector (standardized age at index 0, sex one-hot at 1..3,
localization one-hot at 4..18). -/
def process_metadata (age : ℚ) (sex localization : String) : List ℚ :=
  let meta0 := (List.replicate num_meta_features (0 : ℚ)).set 0
    ((age - 5186/100) / (1696/100))
  let sex_col := "sex_" ++ strToLower sex
  let meta1 := if sex_col ∈ SEX_COLS then
      meta0.set (1 + SEX_COLS.indexOf sex_col) 1
    else meta0
  let loc_col := "localization_" ++ strToLower localization
  if loc_col ∈ LOC_COLS then
    meta1.set (1 + SEX_COLS.length + LOC_COLS.indexOf loc_col) 1
  else meta1

/-! ### inference.py: CustomGradCAM.generate -/

/-- `np.max` on a nonempty array (`npMax [] = 0` is never hit by the
code: numpy raises on empty input). -/
def npMax : List ℚ → ℚ
  | [] => 0
  | x :: xs => xs.foldl max x

/-- `np.min` on a nonempty array. -/
def npMin : List ℚ → ℚ
  | [] => 0
  | x :: xs => xs.foldl min x

/-- `np.mean` of a 1-D array. -/
def npMean (l : List ℚ) : ℚ := l.sum / l.length

/-- numpy division of a finite scalar: `none` when the denominator is
zero (numpy yields NaN or ±inf there, not a real number). -/
def fdiv (a b : ℚ) : Option ℚ := if b = 0 then none else some (a / b)

/-- The weighted activation sum of `CustomGradCAM.generate`:
`cam = zeros(activations.shape[1:]); for i, w in enumerate(weights): cam += w * activations[i]`
with `weights = np.mean(gradients, axis=(1,2))`.  Spatial maps are
flattened to one dimension (pointwise operations only). -/
def camRaw (acts grads : List (List ℚ)) : List ℚ :=
  (List.zip (grads.map npMean) acts).foldl
    (fun cam wa => List.zipWith (fun c a => c + wa.1 * a) cam wa.2)
    (List.replicate (acts.headD []).length (0 : ℚ))

/-- `cam = np.maximum(cam, 0)` (the ReLU step). -/
def camRelu (acts grads : List (List ℚ)) : List ℚ :=
  (camRaw acts grads).map (fun x => max x 0)

/-- Embedding of `CustomGradCAM.generate` after the backward pass: the
captured activations and gradients are inputs.  Mirrors
`if np.max(cam) != 0: cam = cam - np.min(cam); cam = cam / np.max(cam)`
— note the divisor is the maximum of the *shifted* map. -/
def generate (acts grads : List (List ℚ)) : List (Option ℚ) :=
  let cam := camRelu acts grads
  if npMax cam ≠ 0 then
    let cam2 := cam.map (fun x => x - npMin cam)
    cam2.map (fun x => fdiv x (npMax cam2))
  else
    cam.map some

/-! ### inference.py: TTA views and predict_tta -/

/-- An image tensor, channels × rows × cols (batch axis dropped). -/
abbrev Image := List (List (List ℚ))

/-- `torch.flip(x, [3])`: reverse the width axis of every channel. -/
def hflipT (img : Image) : Image := img.map (fun ch => ch.map List.reverse)

/-- `torch.flip(x, [2])`: reverse the height axis of every channel. -/
def vflipT (img : Image) : Image := img.map List.reverse

/-- `torch.rot90(x, 1, [2, 3])`: rotate every channel by 90° from the
height axis towards the width axis (transpose, then reverse rows). -/
def rot90T (img : Image) : Image := img.map (fun ch => ch.transpose.reverse)

/-- The `views` list of `predict_tta`, in source order. -/
def ttaViews (img : Image) : List Image :=
  [img, hflipT img, vflipT img, rot90T img]

/-- `torch.nn.functional.softmax` over a logit vector, relative to an
abstract exponential `E` (for the real code, `E = Real.exp`, which is
strictly positive everywhere). -/
def softmax (E : ℚ → ℚ) (z : List ℚ) : List ℚ :=
  z.map (fun zi => E zi / (z.map E).sum)

/-- Pointwise tensor addition `probs_sum += ...`. -/
def addV (a b : List ℚ) : List ℚ := List.zipWith (· + ·) a b

/-- The accumulation loop of `predict_tta` over an arbitrary view list,
starting from `torch.zeros(1, CONFIG[num_classes])`. -/
def ttaAccum (E : ℚ → ℚ) (net : Image → List ℚ → List ℚ)
    (meta : List ℚ) (views : List Image) : List ℚ :=
  views.foldl (fun acc v => addV acc (softmax E (net v meta)))
    (List.replicate num_classes 0)

/-- `predict_tta` run on an explicit view list: accumulate softmaxed
network outputs, then divide by `len(views)`. -/
def predict_tta_views (E : ℚ → ℚ) (net : Image → List ℚ → List ℚ)
    (meta : List ℚ) (views : List Image) : List ℚ :=
  (ttaAccum E net meta views).map (· / views.length)

/-- Embedding of `predict_tta`: the four deterministic views of the
single preprocessed tensor, softmax per view, summed, divided by 4. -/
def predict_tta (E : ℚ → ℚ) (net : Image → List ℚ → List ℚ)
    (img : Image) (meta : List ℚ) : List ℚ :=
  predict_tta_views E net meta (ttaViews img)

/-! ### inference.py: np.argsort and the post-processing -/

/-- `np.argsort(probs)`: indices sorted ascending by value.  numpy's
default kind runs insertion sort (stable) below 16 elements, which is
every call here (7 classes). -/
def argsortAsc (l : List ℚ) : List ℕ :=
  List.insertionSort (fun i j => l.getD i 0 ≤ l.getD j 0)
    (List.range l.length)

/-- `np.argsort(probs)[::-1]` — `sorted_indices` in `run_inference`. -/
def argsortDesc (l : List ℚ) : List ℕ := (argsortAsc l).reverse

/-- The spec-side description of the sorted probability list:
`sorted(probabilities, descending)` (§4.6 / §8 of the spec), written
independently of the code's argsort as a descending value sort. -/
def sortedDesc (l : List ℚ) : List ℚ :=
  (List.insertionSort (· ≤ ·) l).reverse

/-! ### inference.py: run_inference with explicit module state -/

/-- The result dictionary of `run_inference`.  The base64-JPEG overlay
encoding of the heatmap is not modelled (pixel codecs are outside the
embedding); the raw Grad-CAM map it is rendered from is kept instead. -/
structure PredictionResult where
  top_prediction : String
  top_confidence : ℚ
  margin : ℚ
  is_uncertain : Bool
  classes : List String
  probabilities : List ℚ
  gradcam : List (Option ℚ)
  deriving DecidableEq, Repr

/-- Mutable state of the process-wide loaded model that `run_inference`
touches: hooks registered on the shared layer
`model.stream_b.backbone[-1]`, the accumulated parameter gradients
(abstracted to the `(image, meta, target_class)` of the last backward
pass, `none` when freshly zeroed), and the number of forward passes the
network has served. -/
structure ModelState where
  fwdHooks : ℕ
  bwdHooks : ℕ
  paramGrads : Option (Image × List ℚ × ℕ)
  netCalls : ℕ
  deriving DecidableEq, Repr

/-- The opaque real-number collaborators of the pipeline: the PIL
decoder (`none` = undecodable bytes, raising inside `Image.open`), the
deterministic BGR/resize/normalize preprocessing, the eval-mode fusion
network, softmax's exponential, and the activation/gradient tensors the
Grad-CAM hooks capture for a forward+backward pass. -/
structure PipelineEnv where
  decodeRGB : List ℕ → Option Image
  preprocess : Image → Image
  E : ℚ → ℚ
  net : Image → List ℚ → List ℚ
  actsOf : Image → List ℚ → List (List ℚ)
  gradsOf : Image → List ℚ → ℕ → List (List ℚ)

/-- The result-composition tail of `run_inference` (steps 4–7 after
the TTA probabilities and the Grad-CAM map are in hand): argsort the
probabilities descending, read off top class, confidence and margin,
set the uncertainty flag at the fixed threshold 0.15, and pack classes
and probabilities in catalog index order. -/
def compose_result (probs : List ℚ) (cam : List (Option ℚ)) :
    PredictionResult :=
  let sorted_indices := argsortDesc probs
  let top_1_idx := sorted_indices.getD 0 0
  let margin := probs.getD top_1_idx 0 - probs.getD (sorted_indices.getD 1 0) 0
  { top_prediction := IDX_TO_CLASS.getD top_1_idx ""
    top_confidence := probs.getD top_1_idx 0
    margin := margin
    is_uncertain := decide (margin < 3/20)
    classes := IDX_TO_CLASS
    probabilities := (List.range IDX_TO_CLASS.length).map (fun i => probs.getD i 0)
    gradcam := cam }

/-- Embedding of `run_inference`: decode (abort on failure), preprocess,
encode metadata, TTA probabilities, argsort, construct `CustomGradCAM`
(registering one forward and one full-backward hook on the shared
layer, never removed), run `generate` (one more forward pass, zeroed
then repopulated gradients), and assemble the result dictionary.  A
failed decode raises before any of that: the state is returned
untouched.  TTA itself performs 4 forward passes. -/
def run_inference (env : PipelineEnv) (s : ModelState)
    (image_bytes : List ℕ) (age : ℚ) (sex localization : String) :
    Except String PredictionResult × ModelState :=
  match env.decodeRGB image_bytes with
  | none => (Except.error "DecodeError", s)
  | some image_rgb =>
    let image_tensor := env.preprocess image_rgb
    let meta_tensor := process_metadata age sex localization
    let probs := predict_tta env.E env.net image_tensor meta_tensor
    let top_1_idx := (argsortDesc probs).getD 0 0
    let s1 : ModelState :=
      { s with
        fwdHooks := s.fwdHooks + 1
        bwdHooks := s.bwdHooks + 1
        netCalls := s.netCalls + 4 }
    let cam := generate (env.actsOf image_tensor meta_tensor)
      (env.gradsOf image_tensor meta_tensor top_1_idx)
    let s2 : ModelState :=
      { s1 with
        paramGrads := some (image_tensor, meta_tensor, top_1_idx)
        netCalls := s1.netCalls + 1 }
    (Except.ok (compose_result probs cam), s2)

/-- A concrete pipeline environment used to exercise the theorems on
closed inputs: every byte string decodes to a tiny 1×1×1 image, the
network is the constant zero-logit function (so softmax yields the
uniform distribution), the exponential is the constant 1, and the
Grad-CAM hooks capture the single-channel maps [[1,2]] / [[2,2]]. -/
def envConst : PipelineEnv where
  decodeRGB := fun _ => some [[[1]]]
  preprocess := id
  E := fun _ => 1
  net := fun _ _ => List.replicate 7 0
  actsOf := fun _ _ => [[1, 2]]
  gradsOf := fun _ _ _ => [[2, 2]]

/-- The fresh module state: no hooks registered, no gradients, no
forward passes served. -/
def state0 : ModelState := ⟨0, 0, none, 0⟩

/-- A pipeline environment whose decoder rejects every byte string
(undecodable input). -/
def envFailDecode : PipelineEnv :=
  { envConst with decodeRGB := fun _ => none }

/-- A view-sensitive stand-in network: its first logit is the top-left
pixel of its input view, so different geometric views really produce
different outputs. -/
def netProbe : Image → List ℚ → List ℚ :=
  fun v _ => [((v.headD []).headD []).headD 0, 1, 0, 0, 0, 0, 0]

/-- The result `run_inference envConst state0 [] 45 "male" "back"`
produces: the uniform distribution over the 7 classes, whose reversed
argsort ranks class 6 first. -/
def resultConst : PredictionResult where
  top_prediction := "Dermatofibroma"
  top_confidence := 1/7
  margin := 0
  is_uncertain := true
  classes := IDX_TO_CLASS
  probabilities := [1/7, 1/7, 1/7, 1/7, 1/7, 1/7, 1/7]
  gradcam := [some 0, some 1]

/-- The module state after that call: one hook pair registered, the
backward pass recorded, five forward passes (4 TTA + 1 Grad-CAM). -/
def stateAfterConst : ModelState :=
  ⟨1, 1, some ([[[1]]], process_metadata 45 "male" "back", 6), 5⟩

/-- The total preorder a *stable* ascending argsort of `l` sorts its
index list by: strictly smaller key first, and among equal keys the
smaller original index first. -/
abbrev stableKeyLE (l : List ℚ) (i j : ℕ) : Prop :=
  l.getD i 0 < l.getD j 0 ∨ (l.getD i 0 = l.getD j 0 ∧ i ≤ j)

instance stableKeyLE_total (l : List ℚ) : IsTotal ℕ (stableKeyLE l) := by
  constructor
  intro a b
  rcases lt_trichotomy (l.getD a 0) (l.getD b 0) with h | h | h
  · exact Or.inl (Or.inl h)
  · rcases Nat.le_total a b with hab | hab
    · exact Or.inl (Or.inr ⟨h, hab⟩)
    · exact Or.inr (Or.inr ⟨h.symm, hab⟩)
  · exact Or.inr (Or.inl h)

instance stableKeyLE_trans (l : List ℚ) : IsTrans ℕ (stableKeyLE l) := by
  constructor
  intro a b c hab hbc
  rcases hab with h1 | ⟨h1, h1'⟩ <;> rcases hbc with h2 | ⟨h2, h2'⟩
  · exact Or.inl (h1.trans h2)
  · exact Or.inl (lt_of_lt_of_le h1 (le_of_eq h2))
  · exact Or.inl (lt_of_le_of_lt (le_of_eq h1) h2)
  · exact Or.inr ⟨h1.trans h2, h1'.trans h2'⟩

/-! ### Lemmas about process_metadata -/

theorem getD_set_eval (l : List ℚ) (i j : ℕ) (a : ℚ) (hj : j < l.length) :
    (l.set i a).getD j 0 = if i = j then a else l.getD j 0 := by
  have hj' : j < (l.set i a).length := by simpa using hj
  rw [List.getD_eq_getElem?_getD, List.getElem?_eq_getElem hj',
    List.getElem_set, List.getD_eq_getElem?_getD, List.getElem?_eq_getElem hj]
  split <;> rfl

/-- Every entry of the encoded metadata vector, as a case split: the
localization one-hot (written last, indices 4..18), the sex one-hot
(indices 1..3), the standardized age (index 0), and zero elsewhere. -/
theorem process_metadata_getD (age : ℚ) (sex localization : String)
    (i : ℕ) (hi : i < 19) :
    (process_metadata age sex localization).getD i 0 =
      if ("localization_" ++ strToLower localization) ∈ LOC_COLS ∧
          i = 4 + LOC_COLS.indexOf ("localization_" ++ strToLower localization) then 1
      else if ("sex_" ++ strToLower sex) ∈ SEX_COLS ∧
          i = 1 + SEX_COLS.indexOf ("sex_" ++ strToLower sex) then 1
      else if i = 0 then (age - 5186/100) / (1696/100)
      else 0 := by
  have hrep : ∀ j : ℕ, j < 19 → (List.replicate 19 (0 : ℚ)).getD j 0 = 0 := by
    intro j hj
    rw [List.getD_eq_getElem?_getD, List.getElem?_replicate_of_lt (by simpa using hj)]
    rfl
  simp only [process_metadata, num_meta_features,
    show SEX_COLS.length = 3 from rfl, show (1 : ℕ) + 3 = 4 from rfl]
  by_cases hloc : ("localization_" ++ strToLower localization) ∈ LOC_COLS <;>
    by_cases hsex : ("sex_" ++ strToLower sex) ∈ SEX_COLS
  · rw [if_pos hloc, if_pos hsex,
      getD_set_eval _ _ _ _ (by simpa using hi),
      getD_set_eval _ _ _ _ (by simpa using hi),
      getD_set_eval _ _ _ _ (by simpa using hi), hrep i hi]
    simp only [hloc, hsex, true_and]
    split_ifs <;> first | rfl | (exfalso; omega)
  · rw [if_pos hloc, if_neg hsex,
      getD_set_eval _ _ _ _ (by simpa using hi),
      getD_set_eval _ _ _ _ (by simpa using hi), hrep i hi]
    simp only [hloc, hsex, true_and, false_and, if_false]
    split_ifs <;> first | rfl | (exfalso; omega)
  · rw [if_neg hloc, if_pos hsex,
      getD_set_eval _ _ _ _ (by simpa using hi),
      getD_set_eval _ _ _ _ (by simpa using hi), hrep i hi]
    simp only [hloc, hsex, true_and, false_and, if_false]
    split_ifs <;> first | rfl | (exfalso; omega)
  · rw [if_neg hloc, if_neg hsex,
      getD_set_eval _ _ _ _ (by simpa using hi), hrep i hi]
    simp only [hloc, hsex, false_and, if_false]
    split_ifs <;> first | rfl | (exfalso; omega)

theorem length_process_metadata (age : ℚ) (sex localization : String) :
    (process_metadata age sex localization).length = 19 := by
  simp only [process_metadata]
  split_ifs <;> simp [num_meta_features]

/-- C7: `process_metadata` is total: for every rational age and every
sex and localization string it returns a length-19 vector; index 0 is
exactly `(age − 51.86) / 16.96` with no clamping; the lookup depends on
the inputs only through their lowercasing; an unrecognized sex string
leaves the sex one-hot block (indices 1..3) all zero, and an
unrecognized localization string leaves the localization block
(indices 4..18) all zero. -/
theorem metadata_encoder_total (age : ℚ) (sex localization : String) :
    (process_metadata age sex localization).length = 19 ∧
    (process_metadata age sex localization).getD 0 0 = (age - 5186/100) / (1696/100) ∧
    (∀ sex₂ localization₂ : String, strToLower sex = strToLower sex₂ →
      strToLower localization = strToLower localization₂ →
      process_metadata age sex localization = process_metadata age sex₂ localization₂) ∧
    (("sex_" ++ strToLower sex) ∉ SEX_COLS →
      (process_metadata age sex localization).getD 1 0 = 0 ∧
      (process_metadata age sex localization).getD 2 0 = 0 ∧
      (process_metadata age sex localization).getD 3 0 = 0) ∧
    (("localization_" ++ strToLower localization) ∉ LOC_COLS →
      ∀ i, 4 ≤ i → i ≤ 18 →
      (process_metadata age sex localization).getD i 0 = 0) := by
  refine ⟨length_process_metadata age sex localization, ?_, ?_, ?_, ?_⟩
  · rw [process_metadata_getD age sex localization 0 (by norm_num),
      if_neg (fun h => absurd h.2 (by omega)),
      if_neg (fun h => absurd h.2 (by omega)), if_pos rfl]
  · intro sex₂ localization₂ h1 h2
    simp only [process_metadata, h1, h2]
  · intro hmem
    refine ⟨?_, ?_, ?_⟩ <;>
      rw [process_metadata_getD age sex localization _ (by norm_num),
        if_neg (fun h => absurd h.2 (by omega)),
        if_neg (fun h => hmem h.1), if_neg (by omega)]
  · intro hmem i h4 h18
    rw [process_metadata_getD age sex localization i (by omega),
      if_neg (fun h => hmem h.1), if_neg ?_, if_neg (by omega)]
    intro h
    have hlt := List.indexOf_lt_length.2 h.1
    rw [show SEX_COLS.length = 3 from rfl] at hlt
    omega

/-- Witness for C7 at concrete inputs: age 51.86 standardizes to
exactly 0, lowercasing makes "MALE"/"Mars" and "male"/"mars" agree, and
the out-of-catalog localization "mars" leaves slot 7 (and the whole
block) zero. -/
theorem metadata_encoder_total_witness :
    (process_metadata (5186/100) "MALE" "Mars").getD 0 0 = 0 ∧
    process_metadata (5186/100) "MALE" "Mars" =
      process_metadata (5186/100) "male" "mars" ∧
    (process_metadata (5186/100) "MALE" "Mars").getD 7 0 = 0 := by
  obtain ⟨-, h0, hcase, -, hloc⟩ :=
    metadata_encoder_total (5186/100) "MALE" "Mars"
  refine ⟨?_, ?_, ?_⟩
  · rw [h0]; norm_num
  · exact hcase "male" "mars" (by decide) (by decide)
  · exact hloc (by decide) 7 (by norm_num) (by norm_num)

/-- Counterexample to C8 as stated: for the unrecognized sex string
"mars" no sex one-hot slot is set at all — indices 1, 2, 3 are all 0,
so it is not the case that exactly one of them is 1. -/
theorem metadata_sex_block_all_zero_cex :
    (process_metadata 45 "mars" "back").getD 1 0 = 0 ∧
    (process_metadata 45 "mars" "back").getD 2 0 = 0 ∧
    (process_metadata 45 "mars" "back").getD 3 0 = 0 := by decide

/-- C8 (amended): in every encoded metadata vector at most one sex slot
(indices 1..3) and at most one localization slot (indices 4..18) holds
the value 1, and the sex block holds exactly one 1 when the lowercased
sex is in the catalog (an unrecognized sex leaves the block all zero). -/
theorem metadata_onehot_at_most_one (age : ℚ) (sex localization : String) :
    (∀ i j, 1 ≤ i → i ≤ 3 → 1 ≤ j → j ≤ 3 →
      (process_metadata age sex localization).getD i 0 = 1 →
      (process_metadata age sex localization).getD j 0 = 1 → i = j) ∧
    (∀ i j, 4 ≤ i → i ≤ 18 → 4 ≤ j → j ≤ 18 →
      (process_metadata age sex localization).getD i 0 = 1 →
      (process_metadata age sex localization).getD j 0 = 1 → i = j) ∧
    (("sex_" ++ strToLower sex) ∈ SEX_COLS →
      ∃ i, 1 ≤ i ∧ i ≤ 3 ∧
        (process_metadata age sex localization).getD i 0 = 1) := by
  have hsexkey : ∀ k, 1 ≤ k → k ≤ 3 →
      (process_metadata age sex localization).getD k 0 = 1 →
      k = 1 + SEX_COLS.indexOf ("sex_" ++ strToLower sex) := by
    intro k hk1 hk3 hv
    rw [process_metadata_getD age sex localization k (by omega)] at hv
    split_ifs at hv with c1 c2 c3
    · exact absurd c1.2 (by omega)
    · exact c2.2
    · omega
    · norm_num at hv
  have hlockey : ∀ k, 4 ≤ k → k ≤ 18 →
      (process_metadata age sex localization).getD k 0 = 1 →
      k = 4 + LOC_COLS.indexOf ("localization_" ++ strToLower localization) := by
    intro k hk4 hk18 hv
    rw [process_metadata_getD age sex localization k (by omega)] at hv
    split_ifs at hv with c1 c2 c3
    · exact c1.2
    · obtain ⟨hm, hk⟩ := c2
      have hlt := List.indexOf_lt_length.2 hm
      rw [show SEX_COLS.length = 3 from rfl] at hlt
      omega
    · omega
    · norm_num at hv
  refine ⟨?_, ?_, ?_⟩
  · intro i j hi1 hi3 hj1 hj3 hvi hvj
    rw [hsexkey i hi1 hi3 hvi, hsexkey j hj1 hj3 hvj]
  · intro i j hi4 hi18 hj4 hj18 hvi hvj
    rw [hlockey i hi4 hi18 hvi, hlockey j hj4 hj18 hvj]
  · intro hmem
    have hlt := List.indexOf_lt_length.2 hmem
    rw [show SEX_COLS.length = 3 from rfl] at hlt
    refine ⟨1 + SEX_COLS.indexOf ("sex_" ++ strToLower sex),
      by omega, by omega, ?_⟩
    rw [process_metadata_getD age sex localization _ (by omega),
      if_neg (fun h => absurd h.2 (by omega)), if_pos ⟨hmem, rfl⟩]

/-- Witness for the amended C8: for age 45, sex "male", location
"back" the sex block holds exactly one 1. -/
theorem metadata_onehot_at_most_one_witness :
    ∃ i, 1 ≤ i ∧ i ≤ 3 ∧
      (process_metadata 45 "male" "back").getD i 0 = 1 :=
  (metadata_onehot_at_most_one 45 "male" "back").2.2 (by decide)

/-! ### Lemmas about npMax / npMin and CustomGradCAM.generate -/

theorem le_foldl_max (xs : List ℚ) (a : ℚ) : a ≤ xs.foldl max a := by
  induction xs generalizing a with
  | nil => exact le_refl a
  | cons x xs ih =>
    exact le_trans (le_max_left a x) (ih (max a x))

theorem mem_le_foldl_max (xs : List ℚ) (a x : ℚ) (hx : x ∈ xs) :
    x ≤ xs.foldl max a := by
  induction xs generalizing a with
  | nil => cases hx
  | cons y ys ih =>
    rcases List.mem_cons.1 hx with h | h
    · subst h
      exact le_trans (le_max_right a x) (le_foldl_max ys (max a x))
    · exact ih (max a y) h

theorem foldl_max_mem (xs : List ℚ) (a : ℚ) : xs.foldl max a ∈ a :: xs := by
  induction xs generalizing a with
  | nil => exact List.mem_singleton.2 rfl
  | cons y ys ih =>
    rw [List.foldl_cons]
    rcases List.mem_cons.1 (ih (max a y)) with h' | h'
    · rw [h']
      rcases max_choice a y with hc | hc <;> rw [hc]
      · exact List.mem_cons_self a _
      · exact List.mem_cons.2 (Or.inr (List.mem_cons_self y _))
    · exact List.mem_cons.2 (Or.inr (List.mem_cons.2 (Or.inr h')))

theorem mem_le_npMax (l : List ℚ) (x : ℚ) (hx : x ∈ l) : x ≤ npMax l := by
  cases l with
  | nil => cases hx
  | cons y ys =>
    rcases List.mem_cons.1 hx with h | h
    · subst h; exact le_foldl_max ys x
    · exact mem_le_foldl_max ys y x h

theorem npMax_mem (l : List ℚ) (hl : l ≠ []) : npMax l ∈ l := by
  cases l with
  | nil => exact absurd rfl hl
  | cons y ys => exact foldl_max_mem ys y

theorem foldl_min_le (xs : List ℚ) (a : ℚ) : xs.foldl min a ≤ a := by
  induction xs generalizing a with
  | nil => exact le_refl a
  | cons x xs ih =>
    exact le_trans (ih (min a x)) (min_le_left a x)

theorem foldl_min_le_mem (xs : List ℚ) (a x : ℚ) (hx : x ∈ xs) :
    xs.foldl min a ≤ x := by
  induction xs generalizing a with
  | nil => cases hx
  | cons y ys ih =>
    rcases List.mem_cons.1 hx with h | h
    · subst h
      exact le_trans (foldl_min_le ys (min a x)) (min_le_right a x)
    · exact ih (min a y) h

theorem npMin_le_mem (l : List ℚ) (x : ℚ) (hx : x ∈ l) : npMin l ≤ x := by
  cases l with
  | nil => cases hx
  | cons y ys =>
    rcases List.mem_cons.1 hx with h | h
    · subst h; exact foldl_min_le ys x
    · exact foldl_min_le_mem ys y x h

theorem foldl_max_map_sub (xs : List ℚ) (a c : ℚ) :
    (xs.map (· - c)).foldl max (a - c) = xs.foldl max a - c := by
  induction xs generalizing a with
  | nil => rfl
  | cons x xs ih =>
    simp only [List.map_cons, List.foldl_cons, max_sub_sub_right, ih]

theorem npMax_map_sub (l : List ℚ) (c : ℚ) (hl : l ≠ []) :
    npMax (l.map (· - c)) = npMax l - c := by
  cases l with
  | nil => exact absurd rfl hl
  | cons y ys => exact foldl_max_map_sub ys y c

theorem camRelu_nonneg (acts grads : List (List ℚ)) :
    ∀ x ∈ camRelu acts grads, 0 ≤ x := by
  intro x hx
  obtain ⟨y, -, hy⟩ := List.mem_map.1 hx
  rw [← hy]
  exact le_max_right y 0

/-- Counterexample to C1 as stated: for the captured single-channel
activation [[1,1]] with gradient [[1,1]] the ReLU'd CAM is the constant
nonzero map [1,1], so the min–max branch is taken; after subtracting
the minimum the map is all zeros, `np.max` of it is 0, and both
entries become the division 0/0 — NaN, not values in [0,1]. -/
theorem gradcam_constant_cam_nan_cex :
    npMax (camRelu [[1, 1]] [[1, 1]]) ≠ 0 ∧
    generate [[1, 1]] [[1, 1]] = [none, none] := by decide

/-- C1 (amended): whenever the ReLU'd CAM is all zero or attains two
distinct values, `CustomGradCAM.generate` returns a heatmap of finite
values in [0,1], and in the degenerate all-zero case it returns the
all-zero map unchanged; but when the ReLU'd CAM is a constant nonzero
map (excluded by the hypothesis) the min–max step divides by zero, see
the counterexample. -/
theorem gradcam_heatmap_range (acts grads : List (List ℚ))
    (h : npMax (camRelu acts grads) = 0 ∨
      npMin (camRelu acts grads) ≠ npMax (camRelu acts grads)) :
    (∀ o ∈ generate acts grads, ∃ x, o = some x ∧ 0 ≤ x ∧ x ≤ 1) ∧
    (npMax (camRelu acts grads) = 0 →
      generate acts grads = (camRelu acts grads).map some ∧
      ∀ x ∈ camRelu acts grads, x = 0) := by
  by_cases hmax : npMax (camRelu acts grads) = 0
  · have hzero : ∀ x ∈ camRelu acts grads, x = 0 := by
      intro x hx
      have h1 := camRelu_nonneg acts grads x hx
      have h2 := mem_le_npMax _ x hx
      rw [hmax] at h2
      linarith
    have hgen : generate acts grads = (camRelu acts grads).map some := by
      simp only [generate]
      rw [if_neg (by simpa using hmax)]
    refine ⟨?_, fun _ => ⟨hgen, hzero⟩⟩
    intro o ho
    rw [hgen] at ho
    obtain ⟨x, hx, hox⟩ := List.mem_map.1 ho
    exact ⟨x, hox.symm, by rw [hzero x hx], by rw [hzero x hx]; norm_num⟩
  · have hne : camRelu acts grads ≠ [] := by
      intro hnil
      exact hmax (by rw [hnil]; rfl)
    have hmm : npMin (camRelu acts grads) < npMax (camRelu acts grads) := by
      rcases h with h | h
      · exact absurd h hmax
      · exact lt_of_le_of_ne
          (npMin_le_mem _ _ (npMax_mem _ hne)) h
    have hgen : generate acts grads =
        ((camRelu acts grads).map (· - npMin (camRelu acts grads))).map
          (fun x => fdiv x
            (npMax ((camRelu acts grads).map (· - npMin (camRelu acts grads))))) := by
      simp only [generate]
      rw [if_pos hmax]
    have hM2 : npMax ((camRelu acts grads).map (· - npMin (camRelu acts grads))) =
        npMax (camRelu acts grads) - npMin (camRelu acts grads) :=
      npMax_map_sub _ _ hne
    refine ⟨?_, fun h0 => absurd h0 hmax⟩
    intro o ho
    rw [hgen] at ho
    obtain ⟨y, hy, hoy⟩ := List.mem_map.1 ho
    obtain ⟨x, hx, hxy⟩ := List.mem_map.1 hy
    have hden : npMax (camRelu acts grads) - npMin (camRelu acts grads) ≠ 0 := by
      intro hc
      rw [sub_eq_zero] at hc
      exact hmm.ne' hc
    refine ⟨(y / (npMax (camRelu acts grads) - npMin (camRelu acts grads))),
      ?_, ?_, ?_⟩
    · rw [← hoy]
      simp only [fdiv, hM2, if_neg hden]
    · apply div_nonneg
      · rw [← hxy]
        have := npMin_le_mem _ x hx
        linarith
      · linarith
    · rw [div_le_one (by linarith)]
      rw [← hxy]
      have := mem_le_npMax _ x hx
      linarith

/-- Witness for the amended C1: a non-constant activation map gives a
heatmap whose entries are finite and lie in [0,1]. -/
theorem gradcam_heatmap_range_witness :
    (npMax (camRelu [[1, 2]] [[2, 2]]) = 0 ∨
      npMin (camRelu [[1, 2]] [[2, 2]]) ≠ npMax (camRelu [[1, 2]] [[2, 2]])) ∧
    ∀ o ∈ generate [[1, 2]] [[2, 2]], ∃ x, o = some x ∧ 0 ≤ x ∧ x ≤ 1 :=
  ⟨Or.inr (by decide),
    (gradcam_heatmap_range [[1, 2]] [[2, 2]] (Or.inr (by decide))).1⟩

/-! ### Lemmas about np.argsort -/

theorem getD_eq_getElem_of_lt {α : Type} (l : List α) (d : α) (i : ℕ)
    (hi : i < l.length) : l.getD i d = l[i] := by
  rw [List.getD_eq_getElem?_getD, List.getElem?_eq_getElem hi]
  rfl

theorem map_getD_range (l : List ℚ) :
    (List.range l.length).map (fun i => l.getD i 0) = l := by
  apply List.ext_getElem
  · simp
  · intro i h1 h2
    simp only [List.getElem_map, List.getElem_range]
    exact getD_eq_getElem_of_lt l 0 i h2

theorem length_argsortAsc (l : List ℚ) : (argsortAsc l).length = l.length := by
  unfold argsortAsc
  rw [List.length_insertionSort, List.length_range]

theorem length_argsortDesc (l : List ℚ) : (argsortDesc l).length = l.length := by
  unfold argsortDesc
  rw [List.length_reverse, length_argsortAsc]

theorem map_getD_argsortAsc (l : List ℚ) :
    (argsortAsc l).map (fun i => l.getD i 0) = List.insertionSort (· ≤ ·) l := by
  unfold argsortAsc
  have h := List.map_insertionSort (fun i j => l.getD i 0 ≤ l.getD j 0) (· ≤ ·)
    (fun i => l.getD i 0) (List.range l.length) (fun a _ b _ => Iff.rfl)
  rw [h, map_getD_range]

theorem map_getD_argsortDesc (l : List ℚ) :
    (argsortDesc l).map (fun i => l.getD i 0) = sortedDesc l := by
  unfold argsortDesc sortedDesc
  rw [List.map_reverse, map_getD_argsortAsc]

theorem getD_argsortDesc (l : List ℚ) (k : ℕ) (hk : k < l.length) :
    l.getD ((argsortDesc l).getD k 0) 0 = (sortedDesc l).getD k 0 := by
  have hk' : k < (argsortDesc l).length := by rw [length_argsortDesc]; exact hk
  rw [← map_getD_argsortDesc l,
    getD_eq_getElem_of_lt ((argsortDesc l).map (fun i => l.getD i 0)) 0 k
      (by simpa using hk'),
    List.getElem_map,
    getD_eq_getElem_of_lt (argsortDesc l) 0 k hk']

theorem sortedDesc_perm (l : List ℚ) : (sortedDesc l).Perm l := by
  unfold sortedDesc
  exact (List.reverse_perm _).trans (List.perm_insertionSort _ l)

theorem sortedDesc_sorted (l : List ℚ) :
    (sortedDesc l).Pairwise (fun a b => b ≤ a) := by
  unfold sortedDesc
  rw [List.pairwise_reverse]
  exact List.sorted_insertionSort (· ≤ ·) l

theorem orderedInsert_congr_rel (r R : ℕ → ℕ → Prop) [DecidableRel r]
    [DecidableRel R] (a : ℕ) (M : List ℕ) (h : ∀ b ∈ M, (r a b ↔ R a b)) :
    M.orderedInsert r a = M.orderedInsert R a := by
  induction M with
  | nil => rfl
  | cons b bs ih =>
    by_cases hr : r a b
    · rw [List.orderedInsert, List.orderedInsert, if_pos hr,
        if_pos ((h b (List.mem_cons_self b bs)).1 hr)]
    · rw [List.orderedInsert, List.orderedInsert, if_neg hr,
        if_neg (fun hR => hr ((h b (List.mem_cons_self b bs)).2 hR)),
        ih (fun c hc => h c (List.mem_cons.2 (Or.inr hc)))]

theorem insertionSort_congr_rel (r R : ℕ → ℕ → Prop) [DecidableRel r]
    [DecidableRel R] (L : List ℕ) (hL : L.Pairwise (· < ·))
    (hrel : ∀ i j : ℕ, i < j → (r i j ↔ R i j)) :
    L.insertionSort r = L.insertionSort R := by
  induction L with
  | nil => rfl
  | cons x L ih =>
    obtain ⟨hx, hL'⟩ := List.pairwise_cons.1 hL
    rw [List.insertionSort, List.insertionSort, ih hL',
      orderedInsert_congr_rel r R x _
        (fun b hb => hrel x b (hx b ((List.mem_insertionSort _).1 hb)))]

theorem argsortAsc_eq_lex (l : List ℚ) :
    argsortAsc l = (List.range l.length).insertionSort (stableKeyLE l) := by
  unfold argsortAsc
  refine insertionSort_congr_rel _ _ (List.range l.length)
    (List.pairwise_lt_range l.length) ?_
  intro i j hij
  constructor
  · intro h
    rcases lt_or_eq_of_le h with h' | h'
    · exact Or.inl h'
    · exact Or.inr ⟨h', Nat.le_of_lt hij⟩
  · intro h
    rcases h with h' | ⟨h', -⟩
    · exact le_of_lt h'
    · exact le_of_eq h'

theorem argsortAsc_pairwise (l : List ℚ) :
    (argsortAsc l).Pairwise (stableKeyLE l) := by
  rw [argsortAsc_eq_lex]
  exact List.sorted_insertionSort (stableKeyLE l) (List.range l.length)

theorem argsortAsc_nodup (l : List ℚ) : (argsortAsc l).Nodup := by
  unfold argsortAsc
  exact (List.perm_insertionSort _ _).symm.nodup (List.nodup_range _)

theorem argsortDesc_perm_range (l : List ℚ) :
    (argsortDesc l).Perm (List.range l.length) := by
  unfold argsortDesc
  exact (List.reverse_perm _).trans (List.perm_insertionSort _ _)

/-- Counterexample to C6 as stated: with equal probabilities 1/2 at
class indices 0 and 1, `np.argsort(probs)[::-1]` ranks class 1 first:
among equal probabilities the class with the *larger* index wins the
higher rank, not the smaller one. -/
theorem argsort_tie_cex :
    ([1/2, 1/2, 0, 0, 0, 0, 0] : List ℚ).getD 0 0 =
      ([1/2, 1/2, 0, 0, 0, 0, 0] : List ℚ).getD 1 0 ∧
    argsortDesc [1/2, 1/2, 0, 0, 0, 0, 0] = [1, 0, 6, 5, 4, 3, 2] := by
  decide

/-- C6 (amended): `sorted_indices = np.argsort(probs)[::-1]` is a
permutation of the class indices arranged by strictly descending
probability, and among equal probabilities by strictly descending
class index — the argsort is a stable ascending sort, so reversing it
puts the *larger* original index first among ties. -/
theorem argsortDesc_rank_order (l : List ℚ) :
    (argsortDesc l).Perm (List.range l.length) ∧
    (argsortDesc l).Pairwise (fun i j =>
      l.getD j 0 < l.getD i 0 ∨ (l.getD i 0 = l.getD j 0 ∧ j < i)) := by
  refine ⟨argsortDesc_perm_range l, ?_⟩
  unfold argsortDesc
  rw [List.pairwise_reverse]
  refine ((argsortAsc_pairwise l).and (argsortAsc_nodup l)).imp ?_
  intro a b hab
  obtain ⟨hR, hne⟩ := hab
  rcases hR with h | ⟨heq, hle⟩
  · exact Or.inl h
  · exact Or.inr ⟨heq.symm, lt_of_le_of_ne hle hne⟩

/-! ### Lemmas about predict_tta -/

theorem softmax_length (E : ℚ → ℚ) (z : List ℚ) :
    (softmax E z).length = z.length := by
  unfold softmax
  rw [List.length_map]

theorem foldl_addV_length (f : Image → List ℚ) (hf : ∀ v, (f v).length = 7)
    (L : List Image) (acc : List ℚ) (hacc : acc.length = 7) :
    (L.foldl (fun a v => addV a (f v)) acc).length = 7 := by
  induction L generalizing acc with
  | nil => exact hacc
  | cons v L ih =>
    rw [List.foldl_cons]
    exact ih _ (by simp [addV, hacc, hf v])

theorem ttaAccum_length (E : ℚ → ℚ) (net : Image → List ℚ → List ℚ)
    (meta : List ℚ) (views : List Image)
    (hnet : ∀ v m, (net v m).length = 7) :
    (ttaAccum E net meta views).length = 7 := by
  unfold ttaAccum
  refine foldl_addV_length (fun v => softmax E (net v meta)) ?_ views _ ?_
  · intro v
    rw [softmax_length, hnet]
  · simp [num_classes]

theorem predict_tta_views_length (E : ℚ → ℚ) (net : Image → List ℚ → List ℚ)
    (meta : List ℚ) (views : List Image)
    (hnet : ∀ v m, (net v m).length = 7) :
    (predict_tta_views E net meta views).length = 7 := by
  unfold predict_tta_views
  rw [List.length_map, ttaAccum_length E net meta views hnet]

theorem predict_tta_length (E : ℚ → ℚ) (net : Image → List ℚ → List ℚ)
    (img : Image) (meta : List ℚ)
    (hnet : ∀ v m, (net v m).length = 7) :
    (predict_tta E net img meta).length = 7 := by
  unfold predict_tta
  exact predict_tta_views_length E net meta (ttaViews img) hnet

theorem compose_result_margin (probs : List ℚ) (cam : List (Option ℚ)) :
    (compose_result probs cam).margin =
      probs.getD ((argsortDesc probs).getD 0 0) 0 -
      probs.getD ((argsortDesc probs).getD 1 0) 0 := rfl

theorem compose_result_probabilities (probs : List ℚ) (cam : List (Option ℚ)) :
    (compose_result probs cam).probabilities =
      (List.range IDX_TO_CLASS.length).map (fun i => probs.getD i 0) := rfl

theorem compose_result_is_uncertain (probs : List ℚ) (cam : List (Option ℚ)) :
    (compose_result probs cam).is_uncertain =
      decide ((compose_result probs cam).margin < 3/20) := rfl

theorem compose_result_classes (probs : List ℚ) (cam : List (Option ℚ)) :
    (compose_result probs cam).classes = IDX_TO_CLASS := rfl

theorem compose_result_top (probs : List ℚ) (cam : List (Option ℚ)) :
    (compose_result probs cam).top_prediction =
      IDX_TO_CLASS.getD ((argsortDesc probs).getD 0 0) "" := rfl

/-- C2: for every successful inference result, `margin` equals the
difference of the first two entries of the descending sort of the
probability vector — the largest minus the second-largest probability
(`sortedDesc` really is the descending sort: a permutation of the
probabilities that is pairwise non-increasing) — and `is_uncertain`
holds iff `margin < 0.15` with a strict inequality: at exactly
`margin = 0.15` the result is not flagged uncertain. -/
theorem result_margin_top_two_gap (env : PipelineEnv) (s : ModelState)
    (image_bytes : List ℕ) (age : ℚ) (sex localization : String)
    (r : PredictionResult) (s' : ModelState)
    (hnet : ∀ v m, (env.net v m).length = 7)
    (hrun : run_inference env s image_bytes age sex localization =
      (Except.ok r, s')) :
    r.margin = (sortedDesc r.probabilities).getD 0 0 -
      (sortedDesc r.probabilities).getD 1 0 ∧
    (sortedDesc r.probabilities).Perm r.probabilities ∧
    (sortedDesc r.probabilities).Pairwise (fun a b => b ≤ a) ∧
    (r.is_uncertain = true ↔ r.margin < 3/20) ∧
    (r.margin = 3/20 → r.is_uncertain = false) := by
  rcases hdec : env.decodeRGB image_bytes with _ | img
  · rw [run_inference, hdec] at hrun
    simp at hrun
  · rw [run_inference, hdec] at hrun
    simp only [Prod.mk.injEq, Except.ok.injEq] at hrun
    obtain ⟨hr, -⟩ := hrun
    subst hr
    have hp7 : (predict_tta env.E env.net (env.preprocess img)
        (process_metadata age sex localization)).length = 7 :=
      predict_tta_length _ _ _ _ hnet
    have hprob : (List.range IDX_TO_CLASS.length).map
        (fun i => (predict_tta env.E env.net (env.preprocess img)
          (process_metadata age sex localization)).getD i 0) =
        predict_tta env.E env.net (env.preprocess img)
          (process_metadata age sex localization) := by
      rw [show IDX_TO_CLASS.length = 7 from rfl, ← hp7, map_getD_range]
    refine ⟨?_, ?_, ?_, ?_, ?_⟩
    · rw [compose_result_margin, compose_result_probabilities, hprob,
        getD_argsortDesc _ 0 (by rw [hp7]; norm_num),
        getD_argsortDesc _ 1 (by rw [hp7]; norm_num)]
    · rw [compose_result_probabilities, hprob]
      exact sortedDesc_perm _
    · rw [compose_result_probabilities, hprob]
      exact sortedDesc_sorted _
    · rw [compose_result_is_uncertain, decide_eq_true_eq]
    · intro h
      rw [compose_result_is_uncertain, h]
      exact decide_eq_false (lt_irrefl _)

/-- Witness for C2 at a full concrete run: the constant-zero network
yields the uniform distribution, margin 0, flagged uncertain. -/
theorem result_margin_top_two_gap_witness :
    resultConst.margin = (sortedDesc resultConst.probabilities).getD 0 0 -
      (sortedDesc resultConst.probabilities).getD 1 0 ∧
    (sortedDesc resultConst.probabilities).Perm resultConst.probabilities ∧
    (sortedDesc resultConst.probabilities).Pairwise (fun a b => b ≤ a) ∧
    (resultConst.is_uncertain = true ↔ resultConst.margin < 3/20) ∧
    (resultConst.margin = 3/20 → resultConst.is_uncertain = false) :=
  result_margin_top_two_gap envConst state0 [] 45 "male" "back"
    resultConst stateAfterConst (fun _ _ => rfl) rfl

/-! ### Pointwise and sum characterization of the TTA ensemble -/

theorem getD_addV (a b : List ℚ) (i : ℕ) (hia : i < a.length)
    (hib : i < b.length) :
    (addV a b).getD i 0 = a.getD i 0 + b.getD i 0 := by
  have hi : i < (addV a b).length := by
    simp only [addV, List.length_zipWith]
    omega
  rw [getD_eq_getElem_of_lt _ _ i hi, getD_eq_getElem_of_lt _ _ i hia,
    getD_eq_getElem_of_lt _ _ i hib]
  simp [addV]

theorem sum_addV (a b : List ℚ) (h : a.length = b.length) :
    (addV a b).sum = a.sum + b.sum := by
  induction a generalizing b with
  | nil =>
    cases b with
    | nil => simp [addV]
    | cons y ys => simp at h
  | cons x xs ih =>
    cases b with
    | nil => simp at h
    | cons y ys =>
      have : addV (x :: xs) (y :: ys) = (x + y) :: addV xs ys := rfl
      rw [this, List.sum_cons, List.sum_cons, List.sum_cons,
        ih ys (by simpa using h)]
      ring

theorem getD_foldl_addV (f : Image → List ℚ) (hf : ∀ v, (f v).length = 7)
    (L : List Image) (acc : List ℚ) (hacc : acc.length = 7)
    (i : ℕ) (hi : i < 7) :
    (L.foldl (fun a v => addV a (f v)) acc).getD i 0 =
      acc.getD i 0 + (L.map (fun v => (f v).getD i 0)).sum := by
  induction L generalizing acc with
  | nil => simp
  | cons v L ih =>
    rw [List.foldl_cons, ih (addV acc (f v)) (by simp [addV, hacc, hf v]),
      getD_addV acc (f v) i (by rw [hacc]; exact hi) (by rw [hf v]; exact hi),
      List.map_cons, List.sum_cons]
    ring

theorem sum_foldl_addV (f : Image → List ℚ) (hf : ∀ v, (f v).length = 7)
    (L : List Image) (acc : List ℚ) (hacc : acc.length = 7) :
    (L.foldl (fun a v => addV a (f v)) acc).sum =
      acc.sum + (L.map (fun v => (f v).sum)).sum := by
  induction L generalizing acc with
  | nil => simp
  | cons v L ih =>
    rw [List.foldl_cons, ih (addV acc (f v)) (by simp [addV, hacc, hf v]),
      sum_addV acc (f v) (by rw [hacc, hf v]), List.map_cons, List.sum_cons]
    ring

theorem sum_map_div (l : List ℚ) (c : ℚ) :
    (l.map (· / c)).sum = l.sum / c := by
  induction l with
  | nil => simp
  | cons x xs ih => simp [List.sum_cons, ih, add_div]

theorem sum_map_E_pos (E : ℚ → ℚ) (z : List ℚ) (hE : ∀ x, 0 < E x)
    (hz : z ≠ []) : 0 < (z.map E).sum := by
  refine List.sum_pos _ ?_ (by simpa using hz)
  intro x hx
  obtain ⟨y, -, rfl⟩ := List.mem_map.1 hx
  exact hE y

theorem softmax_bounds (E : ℚ → ℚ) (z : List ℚ) (hE : ∀ x, 0 < E x) :
    ∀ p ∈ softmax E z, 0 ≤ p ∧ p ≤ 1 := by
  intro p hp
  obtain ⟨y, hy, rfl⟩ := List.mem_map.1 hp
  have hz : z ≠ [] := List.ne_nil_of_mem hy
  have hS := sum_map_E_pos E z hE hz
  constructor
  · exact div_nonneg (le_of_lt (hE y)) (le_of_lt hS)
  · rw [div_le_one hS]
    refine List.single_le_sum ?_ (E y) (List.mem_map_of_mem E hy)
    intro x hx
    obtain ⟨y', -, rfl⟩ := List.mem_map.1 hx
    exact le_of_lt (hE y')

theorem softmax_sum_one (E : ℚ → ℚ) (z : List ℚ) (hE : ∀ x, 0 < E x)
    (hz : z ≠ []) : (softmax E z).sum = 1 := by
  unfold softmax
  simp only [div_eq_mul_inv]
  rw [List.sum_map_mul_right]
  exact mul_inv_cancel₀ (ne_of_gt (sum_map_E_pos E z hE hz))

theorem predict_tta_sum_one (E : ℚ → ℚ) (net : Image → List ℚ → List ℚ)
    (img : Image) (meta : List ℚ) (hE : ∀ x, 0 < E x)
    (hnet : ∀ v m, (net v m).length = 7) :
    (predict_tta E net img meta).sum = 1 := by
  have h1 : ∀ v : Image, (softmax E (net v meta)).sum = 1 := fun v =>
    softmax_sum_one E (net v meta) hE
      (List.length_pos.1 (by rw [hnet]; norm_num))
  unfold predict_tta predict_tta_views ttaAccum
  rw [sum_map_div,
    sum_foldl_addV (fun v => softmax E (net v meta))
      (fun v => by rw [softmax_length, hnet]) _ _ (by simp [num_classes])]
  simp [ttaViews, h1]
  norm_num

theorem predict_tta_getD (E : ℚ → ℚ) (net : Image → List ℚ → List ℚ)
    (img : Image) (meta : List ℚ) (hnet : ∀ v m, (net v m).length = 7)
    (i : ℕ) (hi : i < 7) :
    (predict_tta E net img meta).getD i 0 =
      ((ttaViews img).map (fun v => (softmax E (net v meta)).getD i 0)).sum / 4 := by
  have hacc : (ttaAccum E net meta (ttaViews img)).length = 7 :=
    ttaAccum_length E net meta (ttaViews img) hnet
  have hi' : i < (ttaAccum E net meta (ttaViews img)).length := by
    rw [hacc]; exact hi
  unfold predict_tta predict_tta_views
  rw [getD_eq_getElem_of_lt _ _ i (by simpa using hi'), List.getElem_map,
    ← getD_eq_getElem_of_lt _ _ i hi']
  unfold ttaAccum
  rw [getD_foldl_addV (fun v => softmax E (net v meta))
    (fun v => by rw [softmax_length, hnet]) _ _ (by simp [num_classes]) i hi]
  have hrep : (List.replicate num_classes (0:ℚ)).getD i 0 = 0 := by
    rw [List.getD_eq_getElem?_getD,
      List.getElem?_replicate_of_lt (by simpa [num_classes] using hi)]
    rfl
  rw [hrep, zero_add]
  rfl

theorem predict_tta_bounds (E : ℚ → ℚ) (net : Image → List ℚ → List ℚ)
    (img : Image) (meta : List ℚ) (hE : ∀ x, 0 < E x)
    (hnet : ∀ v m, (net v m).length = 7) :
    ∀ p ∈ predict_tta E net img meta, 0 ≤ p ∧ p ≤ 1 := by
  intro p hp
  have hlen := predict_tta_length E net img meta hnet
  obtain ⟨i, hi, rfl⟩ := List.mem_iff_getElem.1 hp
  have hi7 : i < 7 := by rw [hlen] at hi; exact hi
  rw [← getD_eq_getElem_of_lt _ _ i hi,
    predict_tta_getD E net img meta hnet i hi7]
  have hterm : ∀ v : Image, 0 ≤ (softmax E (net v meta)).getD i 0 ∧
      (softmax E (net v meta)).getD i 0 ≤ 1 := by
    intro v
    have hslen : (softmax E (net v meta)).length = 7 := by
      rw [softmax_length, hnet]
    refine softmax_bounds E (net v meta) hE _ ?_
    rw [getD_eq_getElem_of_lt _ _ i (by rw [hslen]; exact hi7)]
    exact List.getElem_mem _
  obtain ⟨h1a, h1b⟩ := hterm img
  obtain ⟨h2a, h2b⟩ := hterm (hflipT img)
  obtain ⟨h3a, h3b⟩ := hterm (vflipT img)
  obtain ⟨h4a, h4b⟩ := hterm (rot90T img)
  simp only [ttaViews, List.map_cons, List.map_nil, List.sum_cons,
    List.sum_nil]
  constructor
  · apply div_nonneg _ (by norm_num)
    linarith
  · rw [div_le_one (by norm_num)]
    linarith

/-- C3: for every valid (decodable) image input, the result's
probabilities list has length 7, every value lies in [0,1], the values
sum to 1 within 1e-4 (exactly 1 in exact arithmetic), `classes` is the
fixed catalog in index order, and `probabilities` is exactly the TTA
ensemble output vector — entry i corresponds to class i, never
resorted. -/
theorem probabilities_distribution (env : PipelineEnv) (s : ModelState)
    (image_bytes : List ℕ) (age : ℚ) (sex localization : String)
    (img : Image) (r : PredictionResult) (s' : ModelState)
    (hE : ∀ x, 0 < env.E x)
    (hnet : ∀ v m, (env.net v m).length = 7)
    (hdec : env.decodeRGB image_bytes = some img)
    (hrun : run_inference env s image_bytes age sex localization =
      (Except.ok r, s')) :
    r.probabilities.length = 7 ∧
    (∀ p ∈ r.probabilities, 0 ≤ p ∧ p ≤ 1) ∧
    |r.probabilities.sum - 1| ≤ 1/10000 ∧
    r.classes = IDX_TO_CLASS ∧
    r.probabilities = predict_tta env.E env.net (env.preprocess img)
      (process_metadata age sex localization) := by
  rw [run_inference, hdec] at hrun
  simp only [Prod.mk.injEq, Except.ok.injEq] at hrun
  obtain ⟨hr, -⟩ := hrun
  subst hr
  have hp7 := predict_tta_length env.E env.net (env.preprocess img)
    (process_metadata age sex localization) hnet
  have hprob : (compose_result
      (predict_tta env.E env.net (env.preprocess img)
        (process_metadata age sex localization))
      (generate (env.actsOf (env.preprocess img) (process_metadata age sex localization))
        (env.gradsOf (env.preprocess img) (process_metadata age sex localization)
          ((argsortDesc (predict_tta env.E env.net (env.preprocess img)
            (process_metadata age sex localization))).getD 0 0)))).probabilities =
      predict_tta env.E env.net (env.preprocess img)
        (process_metadata age sex localization) := by
    rw [compose_result_probabilities, show IDX_TO_CLASS.length = 7 from rfl,
      ← hp7, map_getD_range]
  refine ⟨by rw [hprob, hp7], ?_, ?_, compose_result_classes _ _, hprob⟩
  · rw [hprob]
    exact predict_tta_bounds _ _ _ _ hE hnet
  · rw [hprob, predict_tta_sum_one _ _ _ _ hE hnet]
    norm_num

/-- Witness for C3 at a full concrete run with the constant-zero
network: the uniform distribution. -/
theorem probabilities_distribution_witness :
    resultConst.probabilities.length = 7 ∧
    (∀ p ∈ resultConst.probabilities, 0 ≤ p ∧ p ≤ 1) ∧
    |resultConst.probabilities.sum - 1| ≤ 1/10000 ∧
    resultConst.classes = IDX_TO_CLASS ∧
    resultConst.probabilities = predict_tta envConst.E envConst.net
      (envConst.preprocess [[[1]]]) (process_metadata 45 "male" "back") :=
  probabilities_distribution envConst state0 [] 45 "male" "back" [[[1]]]
    resultConst stateAfterConst (fun _ => one_pos) (fun _ _ => rfl) rfl rfl

/-! ### C4, C5, C9, C10 -/

theorem addV_right_comm (z a b : List ℚ) :
    addV (addV z a) b = addV (addV z b) a := by
  induction z generalizing a b with
  | nil => rfl
  | cons z zs ih =>
    cases a with
    | nil => simp [addV]
    | cons a as =>
      cases b with
      | nil => simp [addV]
      | cons b bs =>
        show (z + a + b) :: addV (addV zs as) bs =
          (z + b + a) :: addV (addV zs bs) as
        have hh : z + a + b = z + b + a := by ring
        rw [hh, ih as bs]

/-- C4: `predict_tta` builds exactly the four deterministic views —
identity, horizontal flip, vertical flip, 90° rotation — of the single
preprocessed tensor, and running the same accumulation over the views
in any other order yields an identical result: the softmax
accumulation is commutative. -/
theorem tta_four_views_commutative (E : ℚ → ℚ)
    (net : Image → List ℚ → List ℚ) (img : Image) (meta : List ℚ) :
    ttaViews img = [img, hflipT img, vflipT img, rot90T img] ∧
    (ttaViews img).length = 4 ∧
    ∀ views : List Image, views.Perm (ttaViews img) →
      predict_tta_views E net meta views = predict_tta E net img meta := by
  refine ⟨rfl, rfl, ?_⟩
  intro views hperm
  unfold predict_tta predict_tta_views ttaAccum
  rw [hperm.length_eq]
  congr 1
  exact hperm.foldl_eq' (fun x _ y _ z => addV_right_comm z _ _) _

/-- Witness for C4: a concrete permutation of the four views of a
concrete 2×2 image — on which the probe network genuinely produces
four different outputs — gives the same TTA result. -/
theorem tta_four_views_commutative_witness :
    ([rot90T [[[1, 2], [3, 4]]], [[[1, 2], [3, 4]]],
      vflipT [[[1, 2], [3, 4]]], hflipT [[[1, 2], [3, 4]]]] : List Image).Perm
      (ttaViews [[[1, 2], [3, 4]]]) ∧
    predict_tta_views id netProbe []
      [rot90T [[[1, 2], [3, 4]]], [[[1, 2], [3, 4]]],
        vflipT [[[1, 2], [3, 4]]], hflipT [[[1, 2], [3, 4]]]] =
      predict_tta id netProbe [[[1, 2], [3, 4]]] [] :=
  ⟨by decide,
    (tta_four_views_commutative id netProbe
      [[[1, 2], [3, 4]]] []).2.2 _ (by decide)⟩

/-- C5: the inference pipeline is deterministic in the mutable module
state: a second call with identical inputs, run on the state the first
call left behind (extra hooks registered, gradients populated), returns
the identical result — probabilities, top prediction, and all other
fields bit-identical.  The embedded network is the eval-mode function,
so dropout plays no role. -/
theorem inference_deterministic (env : PipelineEnv) (s : ModelState)
    (image_bytes : List ℕ) (age : ℚ) (sex localization : String) :
    (run_inference env
      (run_inference env s image_bytes age sex localization).2
      image_bytes age sex localization).1 =
    (run_inference env s image_bytes age sex localization).1 := by
  rcases hdec : env.decodeRGB image_bytes with _ | img <;>
    simp [run_inference, hdec]

/-- C9: when the image bytes do not decode, `run_inference` surfaces
the decode error to the caller and returns the module state untouched:
no forward pass is counted, no hook is registered, no gradient is
written — the network is never invoked. -/
theorem decode_failure_aborts (env : PipelineEnv) (s : ModelState)
    (image_bytes : List ℕ) (age : ℚ) (sex localization : String)
    (hdec : env.decodeRGB image_bytes = none) :
    run_inference env s image_bytes age sex localization =
      (Except.error "DecodeError", s) := by
  rw [run_inference, hdec]

/-- Witness for C9: the always-failing decoder yields the decode error
and an unchanged state. -/
theorem decode_failure_aborts_witness :
    run_inference envFailDecode state0 [1, 2, 3] 45 "male" "back" =
      (Except.error "DecodeError", state0) :=
  decode_failure_aborts envFailDecode state0 [1, 2, 3] 45 "male" "back" rfl

/-- C10: every successful `run_inference` call constructs a fresh
`CustomGradCAM`, whose constructor registers one forward hook and one
full backward hook on the shared `model.stream_b.backbone[-1]` layer
and never removes them: the hook counters in the post-call state are
each exactly one larger than before the call. -/
theorem gradcam_hooks_leak (env : PipelineEnv) (s : ModelState)
    (image_bytes : List ℕ) (age : ℚ) (sex localization : String)
    (img : Image) (hdec : env.decodeRGB image_bytes = some img) :
    (run_inference env s image_bytes age sex localization).2.fwdHooks =
      s.fwdHooks + 1 ∧
    (run_inference env s image_bytes age sex localization).2.bwdHooks =
      s.bwdHooks + 1 := by
  rw [run_inference, hdec]
  exact ⟨rfl, rfl⟩

/-- Witness for C10: after one call on the fresh state exactly one
hook pair is registered and stays registered. -/
theorem gradcam_hooks_leak_witness :
    (run_inference envConst state0 [] 45 "male" "back").2.fwdHooks = 1 ∧
    (run_inference envConst state0 [] 45 "male" "back").2.bwdHooks = 1 := by
  have h := gradcam_hooks_leak envConst state0 [] 45 "male" "back" [[[1]]] rfl
  simpa [state0] using h

end SkinCancerApp
